import Mathlib

/-!
Verification of the inline markup-expansion engine of `src/color.c`.

The C parser is a single-pass state machine over a NUL-terminated byte
string.  We embed it shallowly: the output buffer (together with the write
cursor `ptr`) becomes a `List Char` holding exactly the bytes
`new[0 .. ptr)`, the token-start pointer `sptr` becomes a natural-number
offset from the buffer start, the bounded name accumulator `color` becomes
a `List Char`, and the `in_color` flag a `Bool`.  `realloc` growth is
invisible at this level: `srealloc` rebases `ptr` and `sptr` as offsets,
so buffer contents and offsets are preserved across growth.

The one non-structural control step of the C loop — the `buf--; ptr--`
rewind taken when a token name fails lookup — is handled twice: the main
model `parserGo` fuses the rewind with the immediately following
re-examination of the closing `'#'` (which is forced into the
token-start branch because `in_color` is false by then), while
`parserFuel` keeps the rewind explicit, iteration by iteration, and is
proved to finish within `2 * n + 1` iterations, agreeing with `parserGo`.
-/

namespace Itsa

/-- Constant `MAX_COLOR_NAME` from color.c: the size of the `color[]` name
accumulator array. -/
def MAX_COLOR_NAME : Nat := 32

/-- The NUL byte: terminates C strings, so the scan loop `while (*buf)`
stops there. -/
def nulC : Char := Char.ofNat 0

/-- The ESC byte `'\e'`, first byte of every terminal escape code in
color.h. -/
def escC : Char := Char.ofNat 27

/-- Escape code `TC_HI_YELLOW` from color.h. -/
def TC_HI_YELLOW : List Char := "\x1b[38;5;11m".toList

/-- Escape code `TC_HI_GREEN` from color.h. -/
def TC_HI_GREEN : List Char := "\x1b[38;5;10m".toList

/-- Escape code `TC_HI_RED` from color.h. -/
def TC_HI_RED : List Char := "\x1b[38;5;9m".toList

/-- Escape code `TC_HI_BLUE` from color.h. -/
def TC_HI_BLUE : List Char := "\x1b[38;5;33m".toList

/-- Escape code `TC_GREEN` from color.h. -/
def TC_GREEN : List Char := "\x1b[38;5;40m".toList

/-- Escape code `TC_RED` from color.h. -/
def TC_RED : List Char := "\x1b[38;5;160m".toList

/-- Escape code `TC_BLUE` from color.h. -/
def TC_BLUE : List Char := "\x1b[38;5;75m".toList

/-- Escape code `TC_CHARC` from color.h. -/
def TC_CHARC : List Char := "\x1b[38;5;8m".toList

/-- Escape code `TC_TANG` from color.h. -/
def TC_TANG : List Char := "\x1b[38;5;220m".toList

/-- Escape code `TC_BOLD` from color.h. -/
def TC_BOLD : List Char := "\x1b[1m".toList

/-- Escape code `TC_RST` from color.h. -/
def TC_RST : List Char := "\x1b[0m".toList

/-- The static `colors[]` table of color.c, in source order (the
terminating `{}` sentinel becomes the end of the list). -/
def colors : List (List Char × List Char) :=
  [ ("HI_YELLOW".toList, TC_HI_YELLOW)
  , ("HI_GREEN".toList, TC_HI_GREEN)
  , ("HI_RED".toList, TC_HI_RED)
  , ("HI_BLUE".toList, TC_HI_BLUE)
  , ("GREEN".toList, TC_GREEN)
  , ("RED".toList, TC_RED)
  , ("BLUE".toList, TC_BLUE)
  , ("CHARC".toList, TC_CHARC)
  , ("TANG".toList, TC_TANG)
  , ("BOLD".toList, TC_BOLD)
  , ("RST".toList, TC_RST)
  , ("MSG_INFO".toList, TC_HI_BLUE)
  , ("MSG_WARN".toList, TC_HI_YELLOW)
  , ("MSG_ERR".toList, TC_HI_RED)
  , ("INFO".toList, TC_BLUE)
  , ("CONFIRM".toList, TC_CHARC)
  , ("WARNING".toList, TC_HI_YELLOW)
  , ("SUCCESS".toList, TC_HI_GREEN)
  , ("ERROR".toList, TC_HI_RED)
  , ("STRUE".toList, TC_HI_GREEN)
  , ("SFALSE".toList, TC_HI_RED)
  ]

/-- Function `lookup` of color.c: scan the table in order, return the code of the
first entry whose name equals the argument (`strcmp == 0`), or `NULL`
(here `none`) when no entry matches. -/
def lookup (color : List Char) : Option (List Char) :=
  (colors.find? (fun p => p.1 == color)).map (fun p => p.2)

/-- The per-call state of `parser` in color.c: `out` is the content of
the output buffer up to the write cursor (`new[0 .. ptr)`), `s` the
offset `sptr - new` of the current token-start mark, `color` the bytes
accumulated in the name buffer, `inColor` the `in_color` flag. -/
structure PState where
  out : List Char
  s : Nat
  color : List Char
  inColor : Bool

/-- One iteration of the `while (*buf)` loop of `parser` on a non-NUL
byte `c`, with the unknown-name rewind (`buf--; ptr--`) fused with the
iteration that immediately follows it: that next iteration re-examines
the same `'#'` with `in_color == false`, necessarily taking the
token-start branch, so the fused effect is exactly a token start at the
current cursor. -/
def pstep (noColor : Bool) (st : PState) (c : Char) : PState :=
  if c = '#' then
    if st.inColor = false then
      { out := st.out ++ [c], s := st.out.length, color := [], inColor := true }
    else
      match (if noColor then some ([] : List Char) else lookup st.color) with
      | some cd =>
        if cd = [] then
          { st with out := st.out.take st.s, inColor := false }
        else
          { st with out := st.out.take st.s ++ cd, inColor := false }
      | none =>
        { out := st.out ++ [c], s := st.out.length, color := [], inColor := true }
  else
    if st.inColor then
      { st with out := st.out ++ [c], color := st.color ++ [c] }
    else
      { st with out := st.out ++ [c] }

/-- The scan loop of `parser`, stopping at the first NUL byte exactly as
`while (*buf)` does. -/
def parserGo (noColor : Bool) : List Char → PState → PState
  | [], st => st
  | c :: cs, st =>
    if c = nulC then st else parserGo noColor cs (pstep noColor st c)

/-- The state of `parser` right after the local declarations: empty
buffer, both cursors at the start, empty accumulator, `in_color ==
false`. -/
def initSt : PState :=
  { out := [], s := 0, color := [], inColor := false }

/-- Function `parser` of color.c as a function from the input string (the bytes
before the first NUL) to the returned string, with the `NO_COLOR` global
passed explicitly. -/
def parser (noColor : Bool) (buf : List Char) : List Char :=
  (parserGo noColor buf initSt).out

/-- The `while (*buf)` loop of `parser` with the unknown-name rewind
kept explicit, one C loop iteration per recursive call: in the
unknown-name branch `buf--` followed by the loop-footer `buf++` leaves
the scan at the same byte (here: the same `c :: cs`), with only
`in_color` cleared (the `'#'` written at the cursor is cancelled by
`ptr--; ptr++`).  A fuel argument bounds the number of iterations; `none`
means the fuel ran out before the loop finished. -/
def parserFuel (noColor : Bool) : Nat → List Char → PState → Option PState
  | 0, _, _ => none
  | _ + 1, [], st => some st
  | fuel + 1, c :: cs, st =>
    if c = nulC then some st
    else if c = '#' then
      if st.inColor = false then
        parserFuel noColor fuel cs
          { out := st.out ++ [c], s := st.out.length, color := [], inColor := true }
      else
        match (if noColor then some ([] : List Char) else lookup st.color) with
        | some cd =>
          if cd = [] then
            parserFuel noColor fuel cs { st with out := st.out.take st.s, inColor := false }
          else
            parserFuel noColor fuel cs
              { st with out := st.out.take st.s ++ cd, inColor := false }
        | none =>
          parserFuel noColor fuel (c :: cs) { st with inColor := false }
    else
      if st.inColor then
        parserFuel noColor fuel cs { st with out := st.out ++ [c], color := st.color ++ [c] }
      else
        parserFuel noColor fuel cs { st with out := st.out ++ [c] }

/-- Instrumentation of the scan loop for the writes into the fixed
32-byte `color[]` array: a write happens at offset `cptr - color =
st.color.length` whenever `in_color` is set — `*cptr = *buf` for a
non-`'#'` byte, and the terminating `*cptr = '\0'` when the closing
`'#'` is seen.  Returns `true` iff some such write lands at an offset
`≥ MAX_COLOR_NAME`, i.e. outside the array. -/
def accOverflow (noColor : Bool) : List Char → PState → Bool
  | [], _ => false
  | c :: cs, st =>
    if c = nulC then false
    else
      (st.inColor && decide (MAX_COLOR_NAME ≤ st.color.length)) ||
        accOverflow noColor cs (pstep noColor st c)

/-- The `enum msg_type` from color.h. -/
inductive MsgType where
  | MT_ERROR
  | MT_WARNING
  | MT_INFO
  | MT_CONFIRM
  | MT_SUCCESS

/-- The `tstr` chosen by the `switch (type)` of `printc_xtra`. -/
def msgTag : MsgType → List Char
  | .MT_ERROR => "[#ERROR#ERROR#RST#] ".toList
  | .MT_WARNING => "[#WARNING#WARNING#RST#] ".toList
  | .MT_INFO => "[#INFO#INFO#RST#] ".toList
  | .MT_CONFIRM => "[#CONFIRM#CONFIRMATION#RST#] ".toList
  | .MT_SUCCESS => "[#SUCCESS#OK#RST#] ".toList

/-- Function `printc_xtra` of color.c, with `vasprintf` abstracted as an oracle
`vsub` from the assembled format string `str = tstr ++ fmt` to the
materialized string (`none` models a `-1` return).  The result is the
list of strings written to the destination stream `fp`: on substitution
failure the code jumps to `out_free` past the `fprintf`, so nothing is
written; otherwise exactly `parser(buf)` is written. -/
def printc_xtra (noColor : Bool) (type : MsgType)
    (vsub : List Char → Option (List Char)) (fmt : List Char) : List (List Char) :=
  match vsub (msgTag type ++ fmt) with
  | none => []
  | some buf => [parser noColor buf]

/-- Function `printc` of color.c, with `vasprintf` abstracted as for
`printc_xtra`; the result is the list of strings written to stdout. -/
def printc (noColor : Bool)
    (vsub : List Char → Option (List Char)) (fmt : List Char) : List (List Char) :=
  match vsub fmt with
  | none => []
  | some buf => [parser noColor buf]

/-- Re-running the expander (color on) over an already-produced output
string, from the initial state: the "second pass" of the idempotence
property. -/
def rescan (y : List Char) : PState :=
  parserGo false y initSt

/-- Invariant relating a reachable parser state (color on) to the rescan
of its own output.  Outside a token: rescanning the output reproduces it
unchanged, and if the rescan ends inside a token its accumulated name
contains an ESC byte (so no extension of it can ever match a table
name).  Inside a token: the output is the prefix written up to the mark
followed by `'#'` and the accumulated name, and rescanning that prefix
reproduces it, ending either outside a token or inside one whose name
already fails lookup. -/
def RescanInv (st : PState) : Prop :=
  nulC ∉ st.out ∧
  (st.inColor = false →
    (rescan st.out).out = st.out ∧
      ((rescan st.out).inColor = true → escC ∈ (rescan st.out).color)) ∧
  (st.inColor = true →
    ∃ B, st.out = B ++ '#' :: st.color ∧ st.s = B.length ∧ '#' ∉ st.color ∧
      (rescan B).out = B ∧
      ((rescan B).inColor = true → lookup (rescan B).color = none))

/-! ### Basic facts about the color table and `lookup` -/

/-- A `'#'` byte is not the NUL terminator. -/
theorem hash_ne_nul : ('#' : Char) ≠ nulC := by decide

/-- A successful `lookup` returns the code of a table entry whose name is
the argument. -/
theorem lookup_eq_some_mem {n cd : List Char} (h : lookup n = some cd) :
    (n, cd) ∈ colors := by
  unfold lookup at h
  cases hf : colors.find? (fun p => p.1 == n) with
  | none => rw [hf] at h; exact absurd h (by simp)
  | some p =>
    rw [hf] at h
    have hm := List.mem_of_find?_eq_some hf
    have hp := List.find?_some hf
    obtain ⟨p1, p2⟩ := p
    have h1 : p1 = n := by simpa using hp
    have h2 : p2 = cd := by simpa using h
    rw [h1, h2] at hm
    exact hm

/-- Every entry of the static table: the name contains no `'#'`, no NUL
and no ESC byte; the code is non-empty, contains no `'#'`, no NUL, and
contains an ESC byte. -/
theorem colors_entry_props :
    ∀ p ∈ colors, '#' ∉ p.1 ∧ nulC ∉ p.1 ∧ escC ∉ p.1 ∧
      p.2 ≠ [] ∧ '#' ∉ p.2 ∧ nulC ∉ p.2 ∧ escC ∈ p.2 := by decide

/-- The empty name is not in the table. -/
theorem lookup_nil : lookup ([] : List Char) = none := by decide

/-- A name containing the ESC byte is never found: no table name
contains ESC. -/
theorem lookup_esc_none {col : List Char} (h : escC ∈ col) :
    lookup col = none := by
  cases hl : lookup col with
  | none => rfl
  | some cd =>
    exact absurd h (colors_entry_props _ (lookup_eq_some_mem hl)).2.2.1

/-- Lookups never return the empty code: every table code is
non-empty. -/
theorem lookup_ne_nil {col cd : List Char} (h : lookup col = some cd) :
    cd ≠ [] :=
  (colors_entry_props _ (lookup_eq_some_mem h)).2.2.2.1

/-! ### Stepping lemmas for the scan loop -/

/-- Unfolding of one loop iteration on a non-NUL byte. -/
theorem parserGo_cons (noColor : Bool) {c : Char} (cs : List Char) (st : PState)
    (hc : c ≠ nulC) :
    parserGo noColor (c :: cs) st = parserGo noColor cs (pstep noColor st c) := by
  simp [parserGo, hc]

/-- The scan loop splits over concatenation when the first part contains
no NUL byte. -/
theorem parserGo_append (noColor : Bool) {xs : List Char} (ys : List Char)
    (st : PState) (hx : nulC ∉ xs) :
    parserGo noColor (xs ++ ys) st = parserGo noColor ys (parserGo noColor xs st) := by
  induction xs generalizing st with
  | nil => rfl
  | cons c cs ih =>
    simp only [List.mem_cons, not_or] at hx
    rw [List.cons_append, parserGo_cons noColor _ st (Ne.symm hx.1),
      parserGo_cons noColor cs st (Ne.symm hx.1), ih _ hx.2]

/-- Outside a token, `'#'`-free bytes pass straight through: each takes
the final `goto next` branch and is copied to the cursor. -/
theorem parserGo_outside (noColor : Bool) {l : List Char} (out : List Char)
    (s : Nat) (col : List Char) (hh : '#' ∉ l) (hn : nulC ∉ l) :
    parserGo noColor l ⟨out, s, col, false⟩ = ⟨out ++ l, s, col, false⟩ := by
  induction l generalizing out with
  | nil => simp [parserGo]
  | cons c cs ih =>
    simp only [List.mem_cons, not_or] at hh hn
    rw [parserGo_cons noColor cs _ (Ne.symm hn.1)]
    have hc : ¬ c = '#' := fun h => hh.1 h.symm
    have hstep : pstep noColor ⟨out, s, col, false⟩ c = ⟨out ++ [c], s, col, false⟩ := by
      simp [pstep, hc]
    rw [hstep, ih _ hh.2 hn.2]
    simp

/-- Inside a token, `'#'`-free bytes are copied both to the cursor and
to the name accumulator. -/
theorem parserGo_inside (noColor : Bool) {l : List Char} (out : List Char)
    (s : Nat) (col : List Char) (hh : '#' ∉ l) (hn : nulC ∉ l) :
    parserGo noColor l ⟨out, s, col, true⟩ = ⟨out ++ l, s, col ++ l, true⟩ := by
  induction l generalizing out col with
  | nil => simp [parserGo]
  | cons c cs ih =>
    simp only [List.mem_cons, not_or] at hh hn
    rw [parserGo_cons noColor cs _ (Ne.symm hn.1)]
    have hc : ¬ c = '#' := fun h => hh.1 h.symm
    have hstep : pstep noColor ⟨out, s, col, true⟩ c
        = ⟨out ++ [c], s, col ++ [c], true⟩ := by
      simp [pstep, hc]
    rw [hstep, ih _ _ hh.2 hn.2]
    simp

/-- A `'#'` seen outside a token starts one: the byte is written, the
mark is set to the cursor, the accumulator is reset. -/
theorem pstep_hash_outside (noColor : Bool) (out : List Char) (s : Nat)
    (col : List Char) :
    pstep noColor ⟨out, s, col, false⟩ '#'
      = ⟨out ++ ['#'], out.length, [], true⟩ := by
  simp [pstep]

/-- A closing `'#'` with a known name (color on): the cursor rewinds to
the mark and the whole `#NAME#` span is replaced by the code. -/
theorem pstep_close_known {B col cd : List Char} (hl : lookup col = some cd) :
    pstep false ⟨B ++ '#' :: col, B.length, col, true⟩ '#'
      = ⟨B ++ cd, B.length, col, false⟩ := by
  have hcd : cd ≠ [] := lookup_ne_nil hl
  simp [pstep, hl, hcd, List.take_left']

/-- A closing `'#'` with color off: the lookup is skipped, the code is
the empty string, and the whole span is dropped (`ptr = sptr - 1`
followed by `ptr++`). -/
theorem pstep_close_off (B col : List Char) :
    pstep true ⟨B ++ '#' :: col, B.length, col, true⟩ '#'
      = ⟨B, B.length, col, false⟩ := by
  simp [pstep, List.take_left']

/-- A closing `'#'` with an unknown name (color on): `buf--; ptr--`
followed by the loop footer re-examines the same `'#'` outside a token,
so the fused effect is a fresh token start at the current cursor — the
literal `#NAME` text already written stays in the output. -/
theorem pstep_close_unknown {col : List Char} (out : List Char) (s : Nat)
    (hl : lookup col = none) :
    pstep false ⟨out, s, col, true⟩ '#'
      = ⟨out ++ ['#'], out.length, [], true⟩ := by
  simp [pstep, hl]

/-! ### Whole-token lemmas -/

/-- Processing a full `#NAME#` token with a known name (color on) from
outside a token: the span is replaced by the code. -/
theorem parserGo_token_known (out : List Char) (s0 : Nat) (col0 : List Char)
    {N cd : List Char} (hl : lookup N = some cd) :
    parserGo false ('#' :: N ++ ['#']) ⟨out, s0, col0, false⟩
      = ⟨out ++ cd, out.length, N, false⟩ := by
  have hprops := colors_entry_props _ (lookup_eq_some_mem hl)
  have hh : '#' ∉ N := hprops.1
  have hn : nulC ∉ N := hprops.2.1
  rw [show ('#' :: N ++ ['#'] : List Char) = '#' :: (N ++ ['#']) from rfl,
    parserGo_cons false _ _ hash_ne_nul, pstep_hash_outside,
    parserGo_append false _ _ hn, parserGo_inside false _ _ _ hh hn]
  simp only [List.nil_append, List.append_assoc, List.singleton_append]
  rw [parserGo_cons false _ _ hash_ne_nul, pstep_close_known hl]
  rfl

/-- Processing a full `#NAME#` token with color off from outside a
token: the span is elided whatever the name is. -/
theorem parserGo_token_off (out : List Char) (s0 : Nat) (col0 : List Char)
    {N : List Char} (hh : '#' ∉ N) (hn : nulC ∉ N) :
    parserGo true ('#' :: N ++ ['#']) ⟨out, s0, col0, false⟩
      = ⟨out, out.length, N, false⟩ := by
  rw [show ('#' :: N ++ ['#'] : List Char) = '#' :: (N ++ ['#']) from rfl,
    parserGo_cons true _ _ hash_ne_nul, pstep_hash_outside,
    parserGo_append true _ _ hn, parserGo_inside true _ _ _ hh hn]
  simp only [List.nil_append, List.append_assoc, List.singleton_append]
  rw [parserGo_cons true _ _ hash_ne_nul, pstep_close_off]
  rfl

/-- Processing a full `#NAME#` token with an unknown name (color on)
from outside a token: the literal `#NAME` stays in the output and the
closing `'#'` has become a fresh token start. -/
theorem parserGo_token_unknown (out : List Char) (s0 : Nat) (col0 : List Char)
    {N : List Char} (hl : lookup N = none) (hh : '#' ∉ N) (hn : nulC ∉ N) :
    parserGo false ('#' :: N ++ ['#']) ⟨out, s0, col0, false⟩
      = ⟨out ++ '#' :: N ++ ['#'], (out ++ '#' :: N).length, [], true⟩ := by
  rw [show ('#' :: N ++ ['#'] : List Char) = '#' :: (N ++ ['#']) from rfl,
    parserGo_cons false _ _ hash_ne_nul, pstep_hash_outside,
    parserGo_append false _ _ hn, parserGo_inside false _ _ _ hh hn]
  simp only [List.nil_append, List.append_assoc, List.singleton_append]
  rw [parserGo_cons false _ _ hash_ne_nul, pstep_close_unknown _ _ hl]
  simp [parserGo]

/-- Generic form of the known-name close (color on), applicable to any
state known to be inside a token: the cursor rewinds to the mark
(`ptr = sptr`) and the code is written there. -/
theorem pstep_close_on {st : PState} {cd : List Char} (hic : st.inColor = true)
    (hl : lookup st.color = some cd) :
    pstep false st '#' = ⟨st.out.take st.s ++ cd, st.s, st.color, false⟩ := by
  have hcd : cd ≠ [] := lookup_ne_nil hl
  obtain ⟨o, s, c, i⟩ := st
  dsimp only at hic hl
  subst hic
  simp [pstep, hl, hcd]

/-- The NUL byte is in a `#NAME#` token only if it is in the name. -/
theorem nul_not_mem_token {N : List Char} (hn : nulC ∉ N) :
    nulC ∉ ('#' :: N ++ ['#']) := by
  intro h
  rcases List.mem_append.1 h with h1 | h2
  · rcases List.mem_cons.1 h1 with h3 | h4
    · exact absurd h3 (by decide)
    · exact hn h4
  · exact absurd (List.mem_singleton.1 h2) (by decide)

/-- C9: confirmed. Expansion is the identity on markup-free input: for every
input string containing no `'#'` byte, and for either coloring mode,
`expand(input) == input` — all bytes pass through unchanged. -/
theorem expand_id_no_hash (noColor : Bool) (l : List Char)
    (hh : '#' ∉ l) (hn : nulC ∉ l) :
    parser noColor l = l := by
  unfold parser
  rw [show initSt = (⟨[], 0, [], false⟩ : PState) from rfl,
    parserGo_outside noColor _ _ _ hh hn]
  simp

/-- Witness for C9 at the concrete input `"abc"`. -/
theorem expand_id_no_hash_witness :
    ('#' ∉ "abc".toList ∧ nulC ∉ "abc".toList) ∧
      parser false "abc".toList = "abc".toList :=
  ⟨⟨by decide, by decide⟩, expand_id_no_hash false _ (by decide) (by decide)⟩

/-- C5: confirmed. With coloring mode OFF every closed `#NAME#` span is
consumed and removed with no escape bytes emitted, whether or not the
name is known: `expand("#N#text#RST#", OFF) == "text"` for every
`'#'`-free, NUL-free name `N` (in particular every known name). -/
theorem expand_off_elides_tokens (N : List Char) (hh : '#' ∉ N) (hn : nulC ∉ N) :
    parser true (('#' :: N ++ ['#']) ++ "text".toList ++ ('#' :: "RST".toList ++ ['#']))
      = "text".toList := by
  unfold parser
  rw [List.append_assoc,
    parserGo_append true _ _ (nul_not_mem_token hn),
    parserGo_append true _ _ (by decide : nulC ∉ "text".toList),
    show initSt = (⟨[], 0, [], false⟩ : PState) from rfl,
    parserGo_token_off [] 0 [] hh hn,
    parserGo_outside true _ _ _ (by decide) (by decide),
    parserGo_token_off _ _ _ (by decide) (by decide)]
  simp

/-- Witness for C5 at the concrete known name `N := "RED"`. -/
theorem expand_off_elides_tokens_witness :
    ('#' ∉ "RED".toList ∧ nulC ∉ "RED".toList) ∧
      parser true (('#' :: "RED".toList ++ ['#']) ++ "text".toList
          ++ ('#' :: "RST".toList ++ ['#']))
        = "text".toList :=
  ⟨⟨by decide, by decide⟩, expand_off_elides_tokens _ (by decide) (by decide)⟩

/-- C6: confirmed. With coloring mode ON a recognized token is replaced in
place by its escape code, both `'#'` delimiters consumed: for every
known name `N` with code `C`,
`expand("#N#text#RST#", ON) == C + "text" + code(RST)`. -/
theorem expand_on_known_token {N cd : List Char} (hl : lookup N = some cd) :
    parser false (('#' :: N ++ ['#']) ++ "text".toList ++ ('#' :: "RST".toList ++ ['#']))
      = cd ++ "text".toList ++ TC_RST := by
  unfold parser
  have hprops := colors_entry_props _ (lookup_eq_some_mem hl)
  rw [List.append_assoc,
    parserGo_append false _ _ (nul_not_mem_token hprops.2.1),
    parserGo_append false _ _ (by decide : nulC ∉ "text".toList),
    show initSt = (⟨[], 0, [], false⟩ : PState) from rfl,
    parserGo_token_known [] 0 [] hl,
    parserGo_outside false _ _ _ (by decide) (by decide),
    parserGo_token_known _ _ _ (by decide : lookup "RST".toList = some TC_RST)]
  simp

/-- Witness for C6 at the concrete known name `N := "RED"`. -/
theorem expand_on_known_token_witness :
    lookup "RED".toList = some TC_RED ∧
      parser false (('#' :: "RED".toList ++ ['#']) ++ "text".toList
          ++ ('#' :: "RST".toList ++ ['#']))
        = TC_RED ++ "text".toList ++ TC_RST :=
  ⟨by decide, expand_on_known_token (by decide)⟩

/-- C8: confirmed. Unterminated trailing tokens are preserved literally: for
`'#'`-free strings `a` and `b` with `b` shorter than `MAX_COLOR_NAME`,
and either coloring mode, `expand(a + "#" + b) == a + "#" + b`. -/
theorem expand_unterminated_preserved (noColor : Bool) (a b : List Char)
    (ha : '#' ∉ a) (hna : nulC ∉ a) (hb : '#' ∉ b) (hnb : nulC ∉ b)
    (_hlen : b.length < MAX_COLOR_NAME) :
    parser noColor (a ++ '#' :: b) = a ++ '#' :: b := by
  unfold parser
  rw [show initSt = (⟨[], 0, [], false⟩ : PState) from rfl,
    parserGo_append noColor _ _ hna,
    parserGo_outside noColor _ _ _ ha hna,
    parserGo_cons noColor _ _ hash_ne_nul]
  simp only [List.nil_append]
  rw [pstep_hash_outside, parserGo_inside noColor _ _ _ hb hnb]
  simp

/-- Witness for C8 at `a := "abc"`, `b := "RED"` (color on). -/
theorem expand_unterminated_preserved_witness :
    ('#' ∉ "abc".toList ∧ nulC ∉ "abc".toList ∧ '#' ∉ "RED".toList ∧
        nulC ∉ "RED".toList ∧ "RED".toList.length < MAX_COLOR_NAME) ∧
      parser false ("abc".toList ++ '#' :: "RED".toList)
        = "abc".toList ++ '#' :: "RED".toList :=
  ⟨⟨by decide, by decide, by decide, by decide, by decide⟩,
    expand_unterminated_preserved false _ _ (by decide) (by decide) (by decide)
      (by decide) (by decide)⟩

/-- Helper for the chained-ambiguity claim: the general computation of
`expand("#U##K#text#RST#", ON)` for an unknown `'#'`-free name `U` and a
known name `K`, shared by the counterexample and the amended claim. -/
theorem expand_chain_unknown_spanned (U : List Char) (hu : lookup U = none)
    (hh : '#' ∉ U) (hn : nulC ∉ U) {K cd : List Char} (hk : lookup K = some cd) :
    parser false (('#' :: U ++ ['#']) ++ ('#' :: K ++ ['#']) ++ "text".toList
        ++ ('#' :: "RST".toList ++ ['#']))
      = ('#' :: U ++ ['#']) ++ cd ++ "text".toList ++ TC_RST := by
  unfold parser
  have hkp := colors_entry_props _ (lookup_eq_some_mem hk)
  have hK : parserGo false ('#' :: (K ++ ['#']))
      (⟨'#' :: (U ++ ['#']), ('#' :: U).length, [], true⟩ : PState)
      = ⟨('#' :: (U ++ ['#'])) ++ cd, ('#' :: (U ++ ['#'])).length, K, false⟩ := by
    rw [parserGo_cons false _ _ hash_ne_nul,
      pstep_close_unknown _ _ lookup_nil,
      parserGo_append false _ _ hkp.2.1,
      parserGo_inside false _ _ _ hkp.1 hkp.2.1,
      parserGo_cons false _ _ hash_ne_nul,
      pstep_close_on rfl (by simpa using hk)]
    dsimp only
    rw [List.append_assoc ('#' :: (U ++ ['#'])) ['#'] K, List.take_left]
    simp [parserGo]
  rw [List.append_assoc, List.append_assoc,
    parserGo_append false _ _ (nul_not_mem_token hn),
    parserGo_append false _ _ (nul_not_mem_token hkp.2.1),
    parserGo_append false _ _ (by decide : nulC ∉ "text".toList),
    show initSt = (⟨[], 0, [], false⟩ : PState) from rfl,
    parserGo_token_unknown [] 0 [] hu hh hn]
  simp only [List.nil_append, List.cons_append]
  rw [hK,
    parserGo_outside false _ _ _ (by decide) (by decide),
    show ('#' :: ("RST".toList ++ ['#']) : List Char) = '#' :: "RST".toList ++ ['#'] from rfl,
    parserGo_token_known _ _ _ (by decide : lookup "RST".toList = some TC_RST)]
  simp

/-- C1, counterexample: at the concrete instance UNKNOWN := `"FOO"`
(not in the table), KNOWN := `"RED"`, the output of
`expand("#FOO##RED#text#RST#", ON)` is not
`"#" + code(RED) + "text" + code(RST)`: the unknown name and its
closing `'#'` survive in the output together with the opening `'#'`. -/
theorem expand_chain_counterexample :
    parser false "#FOO##RED#text#RST#".toList
      ≠ '#' :: (TC_RED ++ "text".toList ++ TC_RST) := by
  have h := expand_chain_unknown_spanned "FOO".toList (by decide) (by decide)
    (by decide) (by decide : lookup "RED".toList = some TC_RED)
  rw [show "#FOO##RED#text#RST#".toList
      = ('#' :: "FOO".toList ++ ['#']) ++ ('#' :: "RED".toList ++ ['#'])
          ++ "text".toList ++ ('#' :: "RST".toList ++ ['#']) from rfl, h]
  decide

/-- C1, amended: When the first `#`-delimited name is unknown, the
whole literal `#UNKNOWN#` span survives in the output (the opening
`'#'`, the name, and the retried `'#'` which here closes an empty-name
token before the known token is read from the second `'#'` of `"##"`):
`expand("#U##K#text#RST#", ON) == "#" + U + "#" + code(K) + "text" +
code(RST)` for every unknown `'#'`-free name `U` and known name `K`. -/
theorem expand_chain_unknown_literal (U : List Char) (hu : lookup U = none)
    (hh : '#' ∉ U) (hn : nulC ∉ U) {K cd : List Char} (hk : lookup K = some cd) :
    parser false (('#' :: U ++ ['#']) ++ ('#' :: K ++ ['#']) ++ "text".toList
        ++ ('#' :: "RST".toList ++ ['#']))
      = ('#' :: U ++ ['#']) ++ cd ++ "text".toList ++ TC_RST :=
  expand_chain_unknown_spanned U hu hh hn hk

/-- Witness for the amended C1 at `U := "FOO"`, `K := "RED"`. -/
theorem expand_chain_unknown_literal_witness :
    (lookup "FOO".toList = none ∧ '#' ∉ "FOO".toList ∧ nulC ∉ "FOO".toList ∧
        lookup "RED".toList = some TC_RED) ∧
      parser false (('#' :: "FOO".toList ++ ['#']) ++ ('#' :: "RED".toList ++ ['#'])
          ++ "text".toList ++ ('#' :: "RST".toList ++ ['#']))
        = ('#' :: "FOO".toList ++ ['#']) ++ TC_RED ++ "text".toList ++ TC_RST :=
  ⟨⟨by decide, by decide, by decide, by decide⟩,
    expand_chain_unknown_literal _ (by decide) (by decide) (by decide) (by decide)⟩

/-- One `"#RED#x#RST#"` chunk processed from any outside-token state
appends exactly `code(RED) ++ "x" ++ code(RST)` to the output. -/
theorem parserGo_chunk (out : List Char) (s0 : Nat) (col0 : List Char) :
    parserGo false "#RED#x#RST#".toList ⟨out, s0, col0, false⟩
      = ⟨out ++ TC_RED ++ "x".toList ++ TC_RST,
          (out ++ TC_RED ++ "x".toList).length, "RST".toList, false⟩ := by
  rw [show "#RED#x#RST#".toList
      = ('#' :: "RED".toList ++ ['#']) ++ ("x".toList ++ ('#' :: "RST".toList ++ ['#']))
      from rfl,
    parserGo_append false _ _ (by decide),
    parserGo_token_known _ _ _ (by decide : lookup "RED".toList = some TC_RED),
    parserGo_append false _ _ (by decide : nulC ∉ "x".toList),
    parserGo_outside false _ _ _ (by decide) (by decide),
    parserGo_token_known _ _ _ (by decide : lookup "RST".toList = some TC_RST)]

/-- Expanding `n` chained chunks from any outside-token state appends
`n` expanded units, for every `n`: the inductive heart of the growth
claim. -/
theorem parserGo_chunks (n : Nat) :
    ∀ (out : List Char) (s0 : Nat) (col0 : List Char), ∃ s1 col1,
      parserGo false (List.flatten (List.replicate n "#RED#x#RST#".toList))
          ⟨out, s0, col0, false⟩
        = ⟨out ++ List.flatten (List.replicate n (TC_RED ++ "x".toList ++ TC_RST)),
            s1, col1, false⟩ := by
  induction n with
  | zero =>
    intro out s0 col0
    exact ⟨s0, col0, by simp [parserGo]⟩
  | succ n ih =>
    intro out s0 col0
    obtain ⟨s1, col1, h1⟩ := ih (out ++ TC_RED ++ "x".toList ++ TC_RST)
      (out ++ TC_RED ++ "x".toList).length "RST".toList
    refine ⟨s1, col1, ?_⟩
    rw [List.replicate_succ, List.replicate_succ, List.flatten_cons, List.flatten_cons,
      parserGo_append false _ _ (by decide),
      parserGo_chunk, h1]
    simp

/-- C4: confirmed. Buffer growth never corrupts or drops bytes: for every
repetition count `n` (including `n > 1000`), expanding the concatenation
of `n` copies of `"#RED#x#RST#"` with color on yields exactly the
concatenation of `n` copies of `code(RED) + "x" + code(RST)`,
byte-identical and non-truncated. -/
theorem expand_growth_repetition (n : Nat) :
    parser false (List.flatten (List.replicate n "#RED#x#RST#".toList))
      = List.flatten (List.replicate n (TC_RED ++ "x".toList ++ TC_RST)) := by
  obtain ⟨s1, col1, h1⟩ := parserGo_chunks n [] 0 []
  unfold parser
  rw [show initSt = (⟨[], 0, [], false⟩ : PState) from rfl, h1]
  simp

/-- Unfolding of one accumulator-instrumentation step on a non-NUL
byte. -/
theorem accOverflow_cons (noColor : Bool) {c : Char} (cs : List Char) (st : PState)
    (hc : c ≠ nulC) :
    accOverflow noColor (c :: cs) st
      = ((st.inColor && decide (MAX_COLOR_NAME ≤ st.color.length))
          || accOverflow noColor cs (pstep noColor st c)) := by
  simp [accOverflow, hc]

/-- The accumulator instrumentation splits over concatenation when the
first part contains no NUL byte. -/
theorem accOverflow_append (noColor : Bool) :
    ∀ {xs : List Char} (ys : List Char) (st : PState), nulC ∉ xs →
      accOverflow noColor (xs ++ ys) st
        = (accOverflow noColor xs st
            || accOverflow noColor ys (parserGo noColor xs st)) := by
  intro xs
  induction xs with
  | nil =>
    intro ys st _
    simp [accOverflow, parserGo]
  | cons c cs ih =>
    intro ys st hx
    simp only [List.mem_cons, not_or] at hx
    rw [List.cons_append, accOverflow_cons noColor _ _ (Ne.symm hx.1),
      accOverflow_cons noColor _ _ (Ne.symm hx.1),
      parserGo_cons noColor _ _ (Ne.symm hx.1), ih _ _ hx.2, Bool.or_assoc]

/-- No accumulator write reaches offset MAX_COLOR_NAME while scanning a
`'#'`-free run that still fits in the remaining accumulator space. -/
theorem accOverflow_quiet (noColor : Bool) :
    ∀ (l : List Char) (out : List Char) (s : Nat) (col : List Char),
      '#' ∉ l → nulC ∉ l → col.length + l.length ≤ MAX_COLOR_NAME →
      accOverflow noColor l ⟨out, s, col, true⟩ = false := by
  intro l
  induction l with
  | nil =>
    intro out s col _ _ _
    rfl
  | cons c cs ih =>
    intro out s col hh hn hlen
    simp only [List.mem_cons, not_or] at hh hn
    simp only [List.length_cons] at hlen
    have hc : c ≠ nulC := Ne.symm hn.1
    have hch : ¬ c = '#' := fun h => hh.1 h.symm
    have hstep : pstep noColor ⟨out, s, col, true⟩ c
        = ⟨out ++ [c], s, col ++ [c], true⟩ := by
      simp [pstep, hch]
    rw [accOverflow_cons noColor _ _ hc, hstep,
      ih _ _ _ hh.2 hn.2 (by simp only [List.length_append, List.length_cons,
        List.length_nil, MAX_COLOR_NAME] at hlen ⊢; omega)]
    have hlt : ¬ (MAX_COLOR_NAME ≤ col.length) := by
      simp only [MAX_COLOR_NAME] at hlen ⊢
      omega
    simp [hlt]

/-- C2, refutation (code bug): at the input `"#" ++ 32 * "A" ++ "#"`,
the terminating NUL write performed when the token closes lands at
accumulator offset 32 = MAX_COLOR_NAME, outside the 32-byte `color[]`
array: the write-offset instrumentation reports an out-of-bounds
accumulator write. -/
theorem acc_overflow_at_32 :
    accOverflow false ('#' :: (List.replicate MAX_COLOR_NAME 'A' ++ ['#'])) initSt
      = true := by
  have hrep_nul : nulC ∉ List.replicate MAX_COLOR_NAME 'A' := by
    intro h
    exact absurd (List.eq_of_mem_replicate h) (by decide)
  have hrep_hash : '#' ∉ List.replicate MAX_COLOR_NAME 'A' := by
    intro h
    exact absurd (List.eq_of_mem_replicate h) (by decide)
  rw [accOverflow_cons false _ _ hash_ne_nul,
    show pstep false initSt '#' = (⟨['#'], 0, [], true⟩ : PState) from rfl,
    show (initSt.inColor && decide (MAX_COLOR_NAME ≤ initSt.color.length))
      = false from rfl,
    Bool.false_or,
    accOverflow_append false _ _ hrep_nul,
    accOverflow_quiet false _ _ _ _ hrep_hash hrep_nul (by simp),
    Bool.false_or,
    parserGo_inside false _ _ _ hrep_hash hrep_nul,
    accOverflow_cons false _ _ hash_ne_nul]
  simp [MAX_COLOR_NAME]

/-- C10: confirmed. If argument substitution fails (`vasprintf` returns `-1`),
the call writes nothing to the destination stream and returns without
partial output, for both `printc` and `printc_xtra`, every message kind,
coloring mode and format string. -/
theorem printc_no_output_on_subst_failure (noColor : Bool) (t : MsgType)
    (vsub : List Char → Option (List Char)) (fmt : List Char)
    (hx : vsub (msgTag t ++ fmt) = none) (hp : vsub fmt = none) :
    printc_xtra noColor t vsub fmt = [] ∧ printc noColor vsub fmt = [] := by
  constructor
  · simp [printc_xtra, hx]
  · simp [printc, hp]

/-- Witness for C10 with an always-failing substitution oracle. -/
theorem printc_no_output_on_subst_failure_witness :
    ((fun _ : List Char => (none : Option (List Char)))
          (msgTag MsgType.MT_ERROR ++ []) = none ∧
        (fun _ : List Char => (none : Option (List Char))) [] = none) ∧
      printc_xtra false MsgType.MT_ERROR (fun _ => none) [] = [] ∧
        printc false (fun _ => none) [] = [] :=
  ⟨⟨rfl, rfl⟩,
    printc_no_output_on_subst_failure false MsgType.MT_ERROR (fun _ => none) [] rfl rfl⟩

/-- Fuel bound for the explicit-rewind loop: with `2n + 1` fuel for `n`
remaining input bytes it always finishes, agreeing with the fused model.
A rewind iteration consumes no input but clears `in_color`, so the very
next iteration takes the token-start branch on the same `'#'` and
advances: each input position is processed at most twice. -/
theorem parserFuel_complete (noColor : Bool) :
    ∀ (l : List Char) (k : Nat) (st : PState), 2 * l.length + 1 ≤ k →
      parserFuel noColor k l st = some (parserGo noColor l st) := by
  intro l
  induction l with
  | nil =>
    intro k st hk
    cases k with
    | zero => omega
    | succ k => rfl
  | cons c cs ih =>
    intro k st hk
    simp only [List.length_cons] at hk
    cases k with
    | zero => omega
    | succ k =>
      by_cases hc0 : c = nulC
      · subst hc0
        simp [parserFuel, parserGo]
      · rw [parserGo_cons noColor cs st hc0]
        by_cases hch : c = '#'
        · subst hch
          by_cases hic : st.inColor = false
          · have hps : pstep noColor st '#'
                = ⟨st.out ++ ['#'], st.out.length, [], true⟩ := by
              simp [pstep, hic]
            have h1 : parserFuel noColor (k + 1) ('#' :: cs) st
                = parserFuel noColor k cs
                    ⟨st.out ++ ['#'], st.out.length, [], true⟩ := by
              simp [parserFuel, hash_ne_nul, hic]
            rw [h1, hps, ih k _ (by omega)]
          · have hic' : st.inColor = true := by
              revert hic; cases st.inColor <;> simp
            cases hcode : (if noColor then some ([] : List Char) else lookup st.color) with
            | some cd =>
              by_cases hcd : cd = []
              · subst hcd
                have hps : pstep noColor st '#'
                    = { st with out := st.out.take st.s, inColor := false } := by
                  simp [pstep, hic', hcode]
                have h1 : parserFuel noColor (k + 1) ('#' :: cs) st
                    = parserFuel noColor k cs
                        { st with out := st.out.take st.s, inColor := false } := by
                  simp [parserFuel, hash_ne_nul, hic', hcode]
                rw [h1, hps, ih k _ (by omega)]
              · have hps : pstep noColor st '#'
                    = { st with out := st.out.take st.s ++ cd, inColor := false } := by
                  simp [pstep, hic', hcode, hcd]
                have h1 : parserFuel noColor (k + 1) ('#' :: cs) st
                    = parserFuel noColor k cs
                        { st with out := st.out.take st.s ++ cd, inColor := false } := by
                  simp [parserFuel, hash_ne_nul, hic', hcode, hcd]
                rw [h1, hps, ih k _ (by omega)]
            | none =>
              obtain ⟨k2, rfl⟩ : ∃ k2, k = k2 + 1 := ⟨k - 1, by omega⟩
              have hps : pstep noColor st '#'
                  = ⟨st.out ++ ['#'], st.out.length, [], true⟩ := by
                simp [pstep, hic', hcode]
              have h1 : parserFuel noColor (k2 + 1 + 1) ('#' :: cs) st
                  = parserFuel noColor (k2 + 1) ('#' :: cs)
                      { st with inColor := false } := by
                simp [parserFuel, hash_ne_nul, hic', hcode]
              have h2 : parserFuel noColor (k2 + 1) ('#' :: cs)
                    { st with inColor := false }
                  = parserFuel noColor k2 cs
                      ⟨st.out ++ ['#'], st.out.length, [], true⟩ := by
                simp [parserFuel, hash_ne_nul]
              rw [h1, h2, hps, ih k2 _ (by omega)]
        · have hps : pstep noColor st c = if st.inColor
              then { st with out := st.out ++ [c], color := st.color ++ [c] }
              else { st with out := st.out ++ [c] } := by
            simp [pstep, hch]
          cases hic : st.inColor with
          | true =>
            have h1 : parserFuel noColor (k + 1) (c :: cs) st
                = parserFuel noColor k cs
                    { st with out := st.out ++ [c], color := st.color ++ [c] } := by
              simp [parserFuel, hc0, hch, hic]
            rw [h1, hps, hic, ih k _ (by omega)]
            simp
          | false =>
            have h1 : parserFuel noColor (k + 1) (c :: cs) st
                = parserFuel noColor k cs { st with out := st.out ++ [c] } := by
              simp [parserFuel, hc0, hch, hic]
            rw [h1, hps, hic, ih k _ (by omega)]
            simp

/-- C7: confirmed. The expander terminates on every finite input and always
produces an output string, for both coloring modes: the loop with the
one-byte rewind kept explicit finishes within `2n + 1` iterations (each
input position is processed at most twice — the re-examined closing
`'#'` is always consumed as a new token start) and returns the fused
model's final state, including for inputs ending inside an unterminated
token and for chains of unknown tokens. -/
theorem parser_terminates_two_passes (noColor : Bool) (l : List Char) :
    parserFuel noColor (2 * l.length + 1) l initSt
      = some (parserGo noColor l initSt) :=
  parserFuel_complete noColor l _ initSt (le_refl _)

/-! ### Idempotence: rescanning a finished output reproduces it -/

/-- A non-`'#'` byte outside a token, for an arbitrary state. -/
theorem pstep_lit_outside (noColor : Bool) {st : PState} {c : Char}
    (hic : st.inColor = false) (hch : c ≠ '#') :
    pstep noColor st c = { st with out := st.out ++ [c] } := by
  simp [pstep, hch, hic]

/-- A non-`'#'` byte inside a token, for an arbitrary state. -/
theorem pstep_lit_inside (noColor : Bool) {st : PState} {c : Char}
    (hic : st.inColor = true) (hch : c ≠ '#') :
    pstep noColor st c = { st with out := st.out ++ [c], color := st.color ++ [c] } := by
  simp [pstep, hch, hic]

/-- A token-start `'#'`, for an arbitrary state. -/
theorem pstep_hash_start (noColor : Bool) {st : PState} (hic : st.inColor = false) :
    pstep noColor st '#' = ⟨st.out ++ ['#'], st.out.length, [], true⟩ := by
  simp [pstep, hic]

/-- An unknown-name close (color on), for an arbitrary state. -/
theorem pstep_close_unknown2 {st : PState} (hic : st.inColor = true)
    (hl : lookup st.color = none) :
    pstep false st '#' = ⟨st.out ++ ['#'], st.out.length, [], true⟩ := by
  simp [pstep, hic, hl]

/-- Runs of `'#'`-free bytes from an arbitrary outside-token state. -/
theorem parserGo_outside2 (noColor : Bool) {l : List Char} {st : PState}
    (hic : st.inColor = false) (hh : '#' ∉ l) (hn : nulC ∉ l) :
    parserGo noColor l st = { st with out := st.out ++ l } := by
  obtain ⟨o, s, c, i⟩ := st
  dsimp only at hic ⊢
  subst hic
  exact parserGo_outside noColor o s c hh hn

/-- Runs of `'#'`-free bytes from an arbitrary inside-token state. -/
theorem parserGo_inside2 (noColor : Bool) {l : List Char} {st : PState}
    (hic : st.inColor = true) (hh : '#' ∉ l) (hn : nulC ∉ l) :
    parserGo noColor l st = { st with out := st.out ++ l, color := st.color ++ l } := by
  obtain ⟨o, s, c, i⟩ := st
  dsimp only at hic ⊢
  subst hic
  exact parserGo_inside noColor o s c hh hn

/-- Splitting a rescan at a NUL-free prefix. -/
theorem rescan_append {B : List Char} (X : List Char) (hB : nulC ∉ B) :
    rescan (B ++ X) = parserGo false X (rescan B) := by
  unfold rescan
  exact parserGo_append false _ _ hB

/-- Rescanning a prefix of the form `B ++ "#" ++ col` (with `col`
`'#'`-free) when rescanning `B` already reproduces `B` and ends either
outside a token or inside one whose name fails lookup: the rescan
reproduces everything and ends inside a token whose accumulated name is
exactly `col` and whose mark is at `B`. -/
theorem rescan_mid {B col : List Char} (hB : nulC ∉ B) (hcoln : nulC ∉ col)
    (hcolh : '#' ∉ col) (hrB : (rescan B).out = B)
    (hrBi : (rescan B).inColor = true → lookup (rescan B).color = none) :
    rescan (B ++ '#' :: col) = ⟨B ++ '#' :: col, B.length, col, true⟩ := by
  rw [rescan_append _ hB, parserGo_cons false _ _ hash_ne_nul]
  have hstep : pstep false (rescan B) '#' = ⟨B ++ ['#'], B.length, [], true⟩ := by
    cases hri : (rescan B).inColor with
    | false => rw [pstep_hash_start false hri, hrB]
    | true => rw [pstep_close_unknown2 hri (hrBi hri), hrB]
  rw [hstep, parserGo_inside false _ _ _ hcolh hcoln]
  simp

/-- The rescan invariant holds at the initial state. -/
theorem rescanInv_init : RescanInv initSt := by
  refine ⟨by simp [initSt], fun _ => ⟨rfl, ?_⟩, fun h => ?_⟩
  · intro h
    simp [rescan, parserGo, initSt] at h
  · simp [initSt] at h

/-- The rescan invariant is preserved by every loop iteration (color
on). -/
theorem rescanInv_pstep {st : PState} (hI : RescanInv st) {c : Char}
    (hc : c ≠ nulC) : RescanInv (pstep false st c) := by
  obtain ⟨hnul, hout, hin⟩ := hI
  by_cases hch : c = '#'
  · subst hch
    cases hic : st.inColor with
    | false =>
      rw [pstep_hash_start false hic]
      obtain ⟨h1, h2⟩ := hout hic
      refine ⟨?_, fun h => absurd h (by simp), fun _ => ?_⟩
      · intro hmem
        rcases List.mem_append.1 hmem with h | h
        · exact hnul h
        · exact absurd (List.mem_singleton.1 h) (by decide)
      · exact ⟨st.out, by simp, rfl, by simp, h1,
          fun hri => lookup_esc_none (h2 hri)⟩
    | true =>
      obtain ⟨B, hB, hs, hcol, hrB, hrBi⟩ := hin hic
      have hBn : nulC ∉ B := by
        intro h
        exact hnul (by rw [hB]; exact List.mem_append_left _ h)
      have hcoln : nulC ∉ st.color := by
        intro h
        exact hnul (by rw [hB]; exact List.mem_append_right _ (List.mem_cons_of_mem _ h))
      cases hl : lookup st.color with
      | none =>
        rw [pstep_close_unknown2 hic hl]
        have hmid := rescan_mid hBn hcoln hcol hrB hrBi
        refine ⟨?_, fun h => absurd h (by simp), fun _ => ?_⟩
        · intro hmem
          rcases List.mem_append.1 hmem with h | h
          · exact hnul h
          · exact absurd (List.mem_singleton.1 h) (by decide)
        · refine ⟨st.out, by simp, rfl, by simp, ?_, ?_⟩
          · rw [hB, hmid]
          · intro _
            rw [hB, hmid]
            exact hl
      | some cd =>
        have hprops := colors_entry_props _ (lookup_eq_some_mem hl)
        have htake : st.out.take st.s = B := by
          rw [hB, hs]
          exact List.take_left' rfl
        have hps : pstep false st '#' = ⟨B ++ cd, st.s, st.color, false⟩ := by
          rw [pstep_close_on hic hl, htake]
        rw [hps]
        have hcdn : nulC ∉ cd := hprops.2.2.2.2.2.1
        refine ⟨?_, fun _ => ?_, fun h => absurd h (by simp)⟩
        · intro hmem
          rcases List.mem_append.1 hmem with h | h
          · exact hBn h
          · exact hcdn h
        · have hre : rescan (B ++ cd) = parserGo false cd (rescan B) :=
            rescan_append _ hBn
          cases hri : (rescan B).inColor with
          | false =>
            rw [hre, parserGo_outside2 false hri hprops.2.2.2.2.1 hcdn]
            exact ⟨by rw [hrB], fun h => absurd (hri ▸ h) (by simp)⟩
          | true =>
            rw [hre, parserGo_inside2 false hri hprops.2.2.2.2.1 hcdn]
            refine ⟨by rw [hrB], fun _ => ?_⟩
            exact List.mem_append_right _ hprops.2.2.2.2.2.2
  · cases hic : st.inColor with
    | false =>
      rw [pstep_lit_outside false hic hch]
      obtain ⟨h1, h2⟩ := hout hic
      refine ⟨?_, fun _ => ?_, fun h => ?_⟩
      · intro hmem
        rcases List.mem_append.1 hmem with h | h
        · exact hnul h
        · exact hc (List.mem_singleton.1 h).symm
      · have hre : rescan (st.out ++ [c]) = pstep false (rescan st.out) c := by
          rw [rescan_append _ hnul, parserGo_cons false _ _ hc]
          rfl
        cases hri : (rescan st.out).inColor with
        | false =>
          rw [hre, pstep_lit_outside false hri hch]
          exact ⟨by rw [h1], fun h => absurd (hri ▸ h) (by simp)⟩
        | true =>
          rw [hre, pstep_lit_inside false hri hch]
          exact ⟨by rw [h1], fun _ => List.mem_append_left _ (h2 hri)⟩
      · dsimp only at h
        rw [hic] at h
        exact absurd h (by simp)
    | true =>
      rw [pstep_lit_inside false hic hch]
      obtain ⟨B, hB, hs, hcol, hrB, hrBi⟩ := hin hic
      refine ⟨?_, fun h => ?_, fun _ => ⟨B, ?_, hs, ?_, hrB, hrBi⟩⟩
      · intro hmem
        rcases List.mem_append.1 hmem with h | h
        · exact hnul h
        · exact hc (List.mem_singleton.1 h).symm
      · dsimp only at h
        rw [hic] at h
        exact absurd h (by simp)
      · rw [hB]
        simp
      · intro hmem
        rcases List.mem_append.1 hmem with h | h
        · exact hcol h
        · exact hch (List.mem_singleton.1 h).symm

/-- The rescan invariant holds after processing any NUL-free input. -/
theorem rescanInv_parserGo :
    ∀ (x : List Char), nulC ∉ x → ∀ st : PState,
      RescanInv st → RescanInv (parserGo false x st) := by
  intro x
  induction x with
  | nil => exact fun _ st h => h
  | cons c cs ih =>
    intro hx st hI
    simp only [List.mem_cons, not_or] at hx
    rw [parserGo_cons false _ _ (Ne.symm hx.1)]
    exact ih hx.2 _ (rescanInv_pstep hI (Ne.symm hx.1))

/-- C3: confirmed. Expansion with color on is idempotent: for every input
string, `expand(expand(x, ON), ON) == expand(x, ON)` — the result of one
expansion is a fixed point of the expander. -/
theorem expand_on_idempotent (x : List Char) (hx : nulC ∉ x) :
    parser false (parser false x) = parser false x := by
  obtain ⟨hnul, hout, hin⟩ := rescanInv_parserGo x hx initSt rescanInv_init
  show (rescan (parserGo false x initSt).out).out = (parserGo false x initSt).out
  cases hic : (parserGo false x initSt).inColor with
  | false => exact (hout hic).1
  | true =>
    obtain ⟨B, hB, hs, hcol, hrB, hrBi⟩ := hin hic
    have hBn : nulC ∉ B := by
      intro h
      exact hnul (by rw [hB]; exact List.mem_append_left _ h)
    have hcoln : nulC ∉ (parserGo false x initSt).color := by
      intro h
      exact hnul (by rw [hB]; exact List.mem_append_right _ (List.mem_cons_of_mem _ h))
    rw [hB, rescan_mid hBn hcoln hcol hrB hrBi]

/-- Witness for C3 at the concrete input `"#FOO##RED#x"`. -/
theorem expand_on_idempotent_witness :
    nulC ∉ "#FOO##RED#x".toList ∧
      parser false (parser false "#FOO##RED#x".toList)
        = parser false "#FOO##RED#x".toList :=
  ⟨by decide, expand_on_idempotent _ (by decide)⟩

end Itsa
